import Mathlib

/-
Shallow embedding of `rust-taiwan-id` (src/lib.rs), a validator and random
generator for Taiwan national ID numbers, together with proofs of the
specification claims.

Strings are modelled as `List Char` (Rust `&str` iterated by `chars()`);
Rust's `str::len` counts UTF-8 bytes, modelled by `byteLength`.  The random
generator `rand::thread_rng()` is modelled as a stream `Nat → Nat` of raw
draws; `rng.gen_range(lo, hi)` of the rand crate returns a value in
`[lo, hi)` (exclusive high bound), modelled by `lo + raw % (hi - lo)`, and
`rng.gen::<u8>()` by `raw % 256`.  A `panic!` is modelled as `none`.
-/

namespace TaiwanId

/-- The Rust range pattern `'A'...'Z'` on a char (inclusive, by code point). -/
def isUpperAZ (c : Char) : Bool := decide (65 ≤ c.toNat ∧ c.toNat ≤ 90)

/-- The Rust range pattern `'0'...'9'` on a char (inclusive, by code point). -/
def isDigit09 (c : Char) : Bool := decide (48 ≤ c.toNat ∧ c.toNat ≤ 57)

/-- Number of bytes of the UTF-8 encoding of one scalar value. -/
def utf8Len (c : Char) : Nat :=
  if c.toNat < 128 then 1
  else if c.toNat < 2048 then 2
  else if c.toNat < 65536 then 3
  else 4

/-- Rust `str::len`: the UTF-8 byte length of a string. -/
def byteLength (s : List Char) : Nat := (s.map utf8Len).sum

/-- The `MULTIPLIERS` table of `sum` in src/lib.rs. -/
def MULTIPLIERS : List Nat := [1, 9, 8, 7, 6, 5, 4, 3, 2, 1, 1]

/-- `fn sum(ary: &[u8]) -> u16` of src/lib.rs: the weighted digit sum
`Σ ary[i] * MULTIPLIERS[i]`.  Every value is at most `9 * 9 * 11 < 2^16`,
so `u16` arithmetic never wraps and `Nat` models it exactly. -/
def sum (ary : List Nat) : Nat := (List.zipWith (· * ·) MULTIPLIERS ary).sum

/-- The `CODE_MAP` table of src/lib.rs: row `i` is the two-digit code of the
`i`-th uppercase letter. -/
def CODE_MAP : List (Nat × Nat) :=
  [(1, 0), (1, 1), (1, 2), (1, 3), (1, 4), (1, 5), (1, 6), (1, 7), (3, 4),
   (1, 8), (1, 9), (2, 0), (2, 1), (2, 2), (3, 5), (2, 3), (2, 4), (2, 5),
   (2, 6), (2, 7), (2, 8), (2, 9), (3, 2), (3, 0), (3, 1), (3, 3)]

/-- `fn code_map(c: char) -> [u8; 2]` of src/lib.rs: `CODE_MAP[c - 'A']`.
Only ever called with `c` in `A..Z` (the default is never used). -/
def code_map (c : Char) : Nat × Nat := CODE_MAP.getD (c.toNat - 65) (0, 0)

/-- The digit-collection loop of `is_valid` (and the digit loop of the
generator): the numeric values of the characters when all of them are ASCII
digits, `none` as soon as one is not (the early `return false`, resp. the
`panic!("prefix is not valid")`). -/
def digitsOf : List Char → Option (List Nat)
  | [] => some []
  | c :: cs =>
    if isDigit09 c = true then (digitsOf cs).map (fun ds => (c.toNat - 48) :: ds)
    else none

/-- `pub fn is_valid(id: &str) -> bool` of src/lib.rs.  The unfilled slots of
the stack array `a: [u8; 11]` stay `0`, hence the `replicate` padding (in the
reachable success path `ds` always has exactly 9 entries and the padding is
empty). -/
def is_valid (id : List Char) : Bool :=
  if byteLength id ≠ 10 then false
  else
    match id with
    | [] => false
    | first :: rest =>
      if isUpperAZ first = true then
        match digitsOf rest with
        | none => false
        | some ds =>
          sum ((code_map first).1 :: (code_map first).2 ::
            (ds ++ List.replicate (9 - ds.length) 0)) % 10 == 0
      else false

/-- The digit loop of `is_valid` with the hidden partial operations made
explicit: outer `none` models a panic (the write `a[i]` out of bounds for
`i ≥ 11`), `some none` models the early `return false` on a non-digit. -/
def digitsLoopChecked : List Char → Nat → Option (Option (List Nat))
  | [], _ => some (some [])
  | c :: cs, i =>
    if isDigit09 c = true then
      if 11 ≤ i then none
      else (digitsLoopChecked cs (i + 1)).map (Option.map (fun ds => (c.toNat - 48) :: ds))
    else some none

/-- `is_valid` with every potentially panicking operation made explicit:
`none` models a panic (`iter.next().unwrap()` on an empty iterator, or an
out-of-bounds write `a[i]`); `some b` models a normal return of `b`. -/
def is_valid_checked (id : List Char) : Option Bool :=
  if byteLength id ≠ 10 then some false
  else
    match id with
    | [] => none
    | first :: rest =>
      if isUpperAZ first = true then
        match digitsLoopChecked rest 2 with
        | none => none
        | some none => some false
        | some (some ds) =>
          some (sum ((code_map first).1 :: (code_map first).2 ::
            (ds ++ List.replicate (9 - ds.length) 0)) % 10 == 0)
      else some false

/-- `rng.gen_range(lo, hi)` of the rand crate: a value in `[lo, hi)`
(the high bound is exclusive), computed from one raw draw. -/
def genRange (lo hi raw : Nat) : Nat := lo + raw % (hi - lo)

/-- Advance the raw random stream past `k` consumed draws. -/
def shiftRng (rng : Nat → Nat) (k : Nat) : Nat → Nat := fun n => rng (n + k)

/-- `u8::to_string` of a value below 10 is its single decimal digit
character (the generator only ever converts values below 10). -/
def digitChar (d : Nat) : Char :=
  match d with
  | 0 => '0' | 1 => '1' | 2 => '2' | 3 => '3' | 4 => '4'
  | 5 => '5' | 6 => '6' | 7 => '7' | 8 => '8' | 9 => '9'
  | _ => '*'

/-- The random-fill loop `for i in &mut a[a_index..len] { *i = rng.gen::<u8>() % 10 }`:
`n` independent draws, each reduced mod 10. -/
def coreFill (rng : Nat → Nat) (n : Nat) : List Nat :=
  (List.range n).map (fun i => rng i % 256 % 10)

/-- The check-digit line `a[len] = (10 - (sum(&a) % 10) as u8) % 10` of
src/lib.rs, where at that point `a` is `xs` (positions 0–9) with a final `0`
at position 10. -/
def solve_check_digit (xs : List Nat) : Nat := (10 - sum (xs ++ [0]) % 10) % 10

/-- The body of `generate_prefix` for a prefix of byte length ≥ 2
(src/lib.rs lines 79–104): letter check, digit loop over `prefix[1..]`,
random fill of the remaining slots up to position 9, check digit at
position 10, and concatenation of the prefix with `a[prefix.len() + 1 ..]`
rendered as decimal digit characters. -/
def generate_core (rng : Nat → Nat) (first : Char) (rest : List Char) : Option (List Char) :=
  if isUpperAZ first = true then
    match digitsOf rest with
    | none => none
    | some ds =>
      let pair := code_map first
      let fill := coreFill rng (10 - (2 + ds.length))
      let a := pair.1 :: pair.2 ::
        (ds ++ fill) ++ [solve_check_digit (pair.1 :: pair.2 :: (ds ++ fill))]
      some ((first :: rest) ++ (a.drop (byteLength (first :: rest) + 1)).map digitChar)
  else none

/-- `pub fn generate_prefix(prefix: &str) -> String` of src/lib.rs, with an
explicit fuel bounding the recursion depth (the original recurses at most
twice: empty prefix → two-character prefix, one-byte prefix → two-byte
prefix, so any fuel ≥ 3 gives the exact behaviour).  `none` models a panic.
The empty-prefix case draws `rng.gen_range(b'A', b'Z')` (a code point in
`[65, 90)`) and `rng.gen_range(1, 3)`; the one-byte case draws only
`rng.gen_range(1, 3)`. -/
def generate_prefix_fuel : Nat → (Nat → Nat) → List Char → Option (List Char)
  | 0, _, _ => none
  | n + 1, rng, p =>
    if 9 < byteLength p then none
    else if p = [] then
      generate_prefix_fuel n (shiftRng rng 2)
        [Char.ofNat ( genRange 65 90 (rng 0)), digitChar ( genRange 1 3 (rng 1))]
    else if byteLength p = 1 then
      generate_prefix_fuel n (shiftRng rng 1) (p ++ [digitChar ( genRange 1 3 (rng 0))])
    else
      match p with
      | [] => none
      | first :: rest => generate_core rng first rest

/-- `generate_prefix` at its sufficient recursion depth. -/
def generate_prefix (rng : Nat → Nat) (p : List Char) : Option (List Char) :=
  generate_prefix_fuel 3 rng p

/-- `pub fn generate() -> String` of src/lib.rs: `generate_prefix("")`. -/
def generate (rng : Nat → Nat) : Option (List Char) :=
  generate_prefix rng []

/-- The caller-contract shape of a prefix: empty, or an uppercase ASCII
letter followed by ASCII decimal digits. -/
def shapeOKb : List Char → Bool
  | [] => true
  | c :: cs => isUpperAZ c && cs.all isDigit09

/- ### Character and byte-length lemmas -/

lemma isUpperAZ_bounds {c : Char} (h : isUpperAZ c = true) :
    65 ≤ c.toNat ∧ c.toNat ≤ 90 := by
  simpa [isUpperAZ] using h

lemma isDigit09_bounds {c : Char} (h : isDigit09 c = true) :
    48 ≤ c.toNat ∧ c.toNat ≤ 57 := by
  simpa [isDigit09] using h

lemma utf8Len_of_lt {c : Char} (h : c.toNat < 128) : utf8Len c = 1 := by
  unfold utf8Len
  rw [if_pos h]

lemma utf8Len_of_isUpperAZ {c : Char} (h : isUpperAZ c = true) : utf8Len c = 1 :=
  utf8Len_of_lt (by have := isUpperAZ_bounds h; omega)

lemma utf8Len_of_isDigit09 {c : Char} (h : isDigit09 c = true) : utf8Len c = 1 :=
  utf8Len_of_lt (by have := isDigit09_bounds h; omega)

lemma one_le_utf8Len (c : Char) : 1 ≤ utf8Len c := by
  unfold utf8Len
  split
  · exact Nat.le_refl 1
  · split
    · omega
    · split <;> omega

@[simp] lemma byteLength_nil : byteLength [] = 0 := rfl

@[simp] lemma byteLength_cons (c : Char) (cs : List Char) :
    byteLength (c :: cs) = utf8Len c + byteLength cs := by
  simp [byteLength]

lemma byteLength_append (xs ys : List Char) :
    byteLength (xs ++ ys) = byteLength xs + byteLength ys := by
  simp [byteLength]

lemma length_le_byteLength (s : List Char) : s.length ≤ byteLength s := by
  induction s with
  | nil => simp
  | cons c cs ih =>
    have := one_le_utf8Len c
    simp only [List.length_cons, byteLength_cons]
    omega

lemma byteLength_eq_length {s : List Char} (h : ∀ c ∈ s, utf8Len c = 1) :
    byteLength s = s.length := by
  induction s with
  | nil => simp
  | cons c cs ih =>
    have h1 : utf8Len c = 1 := h c (by simp)
    have h2 := ih (fun x hx => h x (by simp [hx]))
    simp [h1, h2, Nat.add_comm]

lemma char_eq_of_toNat {a b : Char} (h : a.toNat = b.toNat) : a = b := by
  apply Char.ext
  exact UInt32.ext h

lemma utf8Len_digitChar (d : Nat) : utf8Len (digitChar d) = 1 := by
  unfold digitChar
  split <;> decide

lemma isDigit09_digitChar {d : Nat} (h : d < 10) : isDigit09 (digitChar d) = true := by
  interval_cases d <;> decide

lemma digitChar_toNat {d : Nat} (h : d < 10) : (digitChar d).toNat = 48 + d := by
  interval_cases d <;> decide

lemma digitChar_of_isDigit09 {c : Char} (h : isDigit09 c = true) :
    digitChar (c.toNat - 48) = c := by
  have hb := isDigit09_bounds h
  apply char_eq_of_toNat
  rw [digitChar_toNat (by omega)]
  omega

lemma ofNat_toNat {n : Nat} (h : n < 55296) : (Char.ofNat n).toNat = n := by
  unfold Char.ofNat
  rw [dif_pos (Or.inl h)]
  simp [Char.ofNatAux, Char.toNat, UInt32.toNat, UInt32.ofNatCore]

lemma letter_isUpperAZ {k : Nat} (h : k < 25) :
    isUpperAZ (Char.ofNat (65 + k)) = true := by
  have ht : (Char.ofNat (65 + k)).toNat = 65 + k := ofNat_toNat (by omega)
  simp only [isUpperAZ, ht, decide_eq_true_eq]
  omega

lemma letter_utf8Len {k : Nat} (h : k < 25) :
    utf8Len (Char.ofNat (65 + k)) = 1 :=
  utf8Len_of_lt (by rw [ofNat_toNat (by omega : 65 + k < 55296)]; omega)

/- ### digitsOf lemmas -/

lemma digitsOf_all {l : List Char} (h : l.all isDigit09 = true) :
    digitsOf l = some (l.map (fun c => c.toNat - 48)) := by
  induction l with
  | nil => rfl
  | cons c cs ih =>
    simp only [List.all_cons, Bool.and_eq_true] at h
    simp [digitsOf, h.1, ih h.2]

lemma digitsOf_none {l : List Char} (h : l.all isDigit09 = false) :
    digitsOf l = none := by
  induction l with
  | nil => simp at h
  | cons c cs ih =>
    simp only [List.all_cons, Bool.and_eq_false_iff] at h
    rcases h with h | h
    · simp [digitsOf, h]
    · unfold digitsOf
      split
      · rw [ih h]; rfl
      · rfl

lemma digitsOf_some_all {l : List Char} {ds : List Nat} (h : digitsOf l = some ds) :
    l.all isDigit09 = true ∧ ds = l.map (fun c => c.toNat - 48) := by
  rcases hb : l.all isDigit09 with _ | _
  · rw [digitsOf_none hb] at h
    exact absurd h (by simp)
  · rw [digitsOf_all hb] at h
    exact ⟨rfl, (Option.some_inj.mp h).symm⟩

lemma digitsOf_cons (c : Char) (cs : List Char) :
    digitsOf (c :: cs) =
      if isDigit09 c = true then (digitsOf cs).map (fun ds => (c.toNat - 48) :: ds)
      else none := rfl

lemma digitsOf_append {xs ys : List Char} {as : List Nat}
    (h : digitsOf xs = some as) :
    digitsOf (xs ++ ys) = (digitsOf ys).map (fun bs => as ++ bs) := by
  induction xs generalizing as with
  | nil =>
    rw [show digitsOf [] = some [] from rfl, Option.some_inj] at h
    subst h
    rw [List.nil_append]
    cases digitsOf ys <;> rfl
  | cons c cs ih =>
    rw [digitsOf_cons] at h
    rw [List.cons_append, digitsOf_cons]
    by_cases hc : isDigit09 c = true
    · rw [if_pos hc] at h ⊢
      rcases hcs : digitsOf cs with _ | bs
      · rw [hcs] at h
        exact absurd h (by simp)
      · rw [hcs] at h
        replace h : (c.toNat - 48) :: bs = as := by simpa using h
        rw [ih hcs]
        subst h
        cases digitsOf ys <;> rfl
    · rw [if_neg hc] at h
      exact absurd h (by simp)

/- ### Checksum lemmas -/

lemma sum_append_last {xs : List Nat} (h : xs.length = 10) (c : Nat) :
    sum (xs ++ [c]) = sum xs + c := by
  have hm : MULTIPLIERS = [1, 9, 8, 7, 6, 5, 4, 3, 2, 1] ++ [1] := rfl
  have hx : List.zipWith (· * ·) ([1, 9, 8, 7, 6, 5, 4, 3, 2, 1] ++ [1]) xs =
      List.zipWith (· * ·) [1, 9, 8, 7, 6, 5, 4, 3, 2, 1] xs := by
    conv_lhs => rw [show xs = xs ++ [] by simp]
    rw [List.zipWith_append _ _ _ _ _ (by simp [h])]
    simp
  unfold sum
  rw [hm, List.zipWith_append _ _ _ _ _ (by simp [h]), hx]
  simp

lemma solve_check_digit_lt {xs : List Nat} : solve_check_digit xs < 10 := by
  unfold solve_check_digit
  omega

lemma solve_check_digit_eq {xs : List Nat} (h : xs.length = 10) :
    solve_check_digit xs = (10 - sum xs % 10) % 10 := by
  unfold solve_check_digit
  rw [sum_append_last h]
  omega

lemma checksum_key {xs : List Nat} (h : xs.length = 10) :
    sum (xs ++ [solve_check_digit xs]) % 10 = 0 := by
  rw [sum_append_last h, solve_check_digit_eq h]
  omega

lemma checksum_unique {xs : List Nat} (h : xs.length = 10) {e : Nat} (he : e < 10)
    (h0 : sum (xs ++ [e]) % 10 = 0) : e = solve_check_digit xs := by
  rw [sum_append_last h] at h0
  rw [solve_check_digit_eq h]
  omega

/- ### Random fill lemmas -/

lemma coreFill_length (rng : Nat → Nat) (n : Nat) : (coreFill rng n).length = n := by
  simp [coreFill]

lemma coreFill_lt_ten (rng : Nat → Nat) (n : Nat) : ∀ x ∈ coreFill rng n, x < 10 := by
  intro x hx
  simp only [coreFill, List.mem_map] at hx
  obtain ⟨i, _, hi⟩ := hx
  omega

lemma byteLength_map_digitChar (ds : List Nat) :
    byteLength (ds.map digitChar) = ds.length :=
  (byteLength_eq_length (by
    intro c hc
    simp only [List.mem_map] at hc
    obtain ⟨d, _, hd⟩ := hc
    rw [← hd]
    exact utf8Len_digitChar d)).trans (by simp)

lemma digitsOf_map_digitChar {ds : List Nat} (h : ∀ d ∈ ds, d < 10) :
    digitsOf (ds.map digitChar) = some ds := by
  induction ds with
  | nil => rfl
  | cons d ds ih =>
    have hd : d < 10 := h d (by simp)
    have hds : ∀ x ∈ ds, x < 10 := fun x hx => h x (by simp [hx])
    rw [List.map_cons, digitsOf_cons]
    rw [if_pos (isDigit09_digitChar hd), ih hds]
    show some (((digitChar d).toNat - 48) :: ds) = some (d :: ds)
    rw [digitChar_toNat hd]
    congr 2
    omega

/- ### Generator step lemmas -/

lemma gpf_too_long {n : Nat} {rng : Nat → Nat} {p : List Char}
    (h : 9 < byteLength p) : generate_prefix_fuel (n + 1) rng p = none := by
  unfold generate_prefix_fuel
  rw [if_pos h]

lemma gpf_empty {n : Nat} {rng : Nat → Nat} :
    generate_prefix_fuel (n + 1) rng [] =
      generate_prefix_fuel n (shiftRng rng 2)
        [Char.ofNat ( genRange 65 90 (rng 0)), digitChar ( genRange 1 3 (rng 1))] := by
  conv_lhs => unfold generate_prefix_fuel
  rw [if_neg (by simp), if_pos rfl]

lemma gpf_one {n : Nat} {rng : Nat → Nat} {c : Char} (h : utf8Len c = 1) :
    generate_prefix_fuel (n + 1) rng [c] =
      generate_prefix_fuel n (shiftRng rng 1) [c, digitChar ( genRange 1 3 (rng 0))] := by
  conv_lhs => unfold generate_prefix_fuel
  rw [if_neg (by simp [h]), if_neg (by simp), if_pos (by simp [h])]
  rfl

lemma gpf_core {n : Nat} {rng : Nat → Nat} {first : Char} {rest : List Char}
    (h2 : 2 ≤ byteLength (first :: rest)) (h9 : byteLength (first :: rest) ≤ 9) :
    generate_prefix_fuel (n + 1) rng (first :: rest) = generate_core rng first rest := by
  unfold generate_prefix_fuel
  rw [if_neg (by omega), if_neg (by simp), if_neg (by omega)]

lemma generate_core_eq {rng : Nat → Nat} {first : Char} {rest : List Char}
    {ds : List Nat} (h1 : isUpperAZ first = true) (hds : digitsOf rest = some ds) :
    generate_core rng first rest =
      some ((first :: rest) ++
        (((code_map first).1 :: (code_map first).2 ::
            (ds ++ coreFill rng (10 - (2 + ds.length))) ++
            [solve_check_digit ((code_map first).1 :: (code_map first).2 ::
              (ds ++ coreFill rng (10 - (2 + ds.length))))]).drop
          (byteLength (first :: rest) + 1)).map digitChar) := by
  unfold generate_core
  rw [if_pos h1, hds]

lemma generate_core_none_iff {rng : Nat → Nat} {first : Char} {rest : List Char} :
    generate_core rng first rest = none ↔
      (isUpperAZ first = false ∨ digitsOf rest = none) := by
  unfold generate_core
  rcases h1 : isUpperAZ first with _ | _
  · simp
  · rw [if_pos rfl]
    rcases hds : digitsOf rest with _ | ds <;> simp

/-- Every member of the digit list recovered from a digit string is below 10. -/
lemma digits_lt_ten {rest : List Char} (h : rest.all isDigit09 = true) :
    ∀ d ∈ rest.map (fun c => c.toNat - 48), d < 10 := by
  intro d hd
  simp only [List.mem_map] at hd
  obtain ⟨c, hc, rfl⟩ := hd
  have hb := isDigit09_bounds (by simpa using (List.all_eq_true.mp h c hc))
  omega

lemma is_valid_of_digits {first : Char} {tail : List Char} {es : List Nat}
    (h1 : isUpperAZ first = true) (hd : digitsOf tail = some es)
    (hlen : tail.length = 9)
    (hsum : sum ((code_map first).1 :: (code_map first).2 :: es) % 10 = 0) :
    is_valid (first :: tail) = true := by
  have hall := (digitsOf_some_all hd).1
  have hes := (digitsOf_some_all hd).2
  have hbt : byteLength tail = tail.length :=
    byteLength_eq_length (fun c hc =>
      utf8Len_of_isDigit09 (by simpa using (List.all_eq_true.mp hall c hc)))
  have hb : byteLength (first :: tail) = 10 := by
    rw [byteLength_cons, utf8Len_of_isUpperAZ h1, hbt, hlen]
  have hesl : es.length = 9 := by rw [hes, List.length_map, hlen]
  unfold is_valid
  rw [if_neg (by omega)]
  show (if isUpperAZ first = true then _ else false) = true
  rw [if_pos h1, hd]
  show (sum ((code_map first).1 :: (code_map first).2 ::
    (es ++ List.replicate (9 - es.length) 0)) % 10 == 0) = true
  rw [hesl]
  simp [hsum]

/-- Soundness of the ≥ 2-byte body: on a letter followed by digit characters
(at most 8 of them) it returns the prefix extended by random digits and the
check digit, and the result is a valid ID. -/
lemma generate_core_sound (rng : Nat → Nat) (first : Char) (rest : List Char)
    (h1 : isUpperAZ first = true) (h2 : rest.all isDigit09 = true)
    (h3 : rest.length ≤ 8) :
    ∃ t, generate_core rng first rest = some ((first :: rest) ++ t) ∧
      is_valid ((first :: rest) ++ t) = true := by
  have hds : digitsOf rest = some (rest.map (fun c => c.toNat - 48)) := digitsOf_all h2
  have hds10 := digits_lt_ten h2
  have hdsl : (rest.map (fun c => c.toNat - 48)).length = rest.length := by simp
  have hbt : byteLength rest = rest.length :=
    byteLength_eq_length (fun c hc =>
      utf8Len_of_isDigit09 (by simpa using (List.all_eq_true.mp h2 c hc)))
  have hby : byteLength (first :: rest) = 1 + rest.length := by
    rw [byteLength_cons, utf8Len_of_isUpperAZ h1, hbt]
  refine ⟨_, generate_core_eq h1 hds, ?_⟩
  set ds := rest.map (fun c => c.toNat - 48) with hdseq
  set fill := coreFill rng (10 - (2 + ds.length)) with hfill
  have hfl : fill.length = 8 - ds.length := by
    rw [hfill, coreFill_length]
    omega
  have hdl : ds.length = rest.length := by rw [hdseq]; simp
  set p1 := (code_map first).1
  set p2 := (code_map first).2
  set chk := solve_check_digit (p1 :: p2 :: (ds ++ fill)) with hchk
  have hidx : byteLength (first :: rest) + 1 = ds.length + 1 + 1 := by omega
  have hdrop :
      (p1 :: p2 :: (ds ++ fill) ++ [chk]).drop (byteLength (first :: rest) + 1) =
        fill ++ [chk] := by
    rw [hidx]
    show (p1 :: p2 :: ((ds ++ fill) ++ [chk])).drop (ds.length + 1 + 1) = fill ++ [chk]
    rw [List.drop_succ_cons, List.drop_succ_cons, List.append_assoc, List.drop_left]
  rw [hdrop]
  rw [show (first :: rest) ++ (fill ++ [chk]).map digitChar =
    first :: (rest ++ (fill ++ [chk]).map digitChar) from rfl]
  have hfill10 : ∀ x ∈ fill, x < 10 := by
    rw [hfill]
    exact coreFill_lt_ten rng _
  have hext10 : ∀ x ∈ fill ++ [chk], x < 10 := by
    intro x hx
    rcases List.mem_append.mp hx with hx | hx
    · exact hfill10 x hx
    · rw [List.mem_singleton.mp hx, hchk]
      exact solve_check_digit_lt
  have hdtail : digitsOf (rest ++ (fill ++ [chk]).map digitChar) =
      some (ds ++ (fill ++ [chk])) := by
    rw [digitsOf_append hds, digitsOf_map_digitChar hext10]
    rfl
  have hxsl : (p1 :: p2 :: (ds ++ fill)).length = 10 := by
    simp only [List.length_cons, List.length_append]
    omega
  have hlen9 : (rest ++ (fill ++ [chk]).map digitChar).length = 9 := by
    rw [List.length_append, List.length_map, List.length_append,
      List.length_singleton, hfl]
    omega
  have hsum9 : sum (p1 :: p2 :: (ds ++ (fill ++ [chk]))) % 10 = 0 := by
    have hre : p1 :: p2 :: (ds ++ (fill ++ [chk])) =
        (p1 :: p2 :: (ds ++ fill)) ++ [chk] := by
      simp [List.append_assoc]
    rw [hre, hchk]
    exact checksum_key hxsl
  exact is_valid_of_digits h1 hdtail hlen9 hsum9

/- ### Top-level generator lemmas -/

lemma byteLength_eq_zero {s : List Char} (h : byteLength s = 0) : s = [] := by
  cases s with
  | nil => rfl
  | cons c cs =>
    have := one_le_utf8Len c
    rw [byteLength_cons] at h
    omega

lemma genRange_letter_lt (raw : Nat) : raw % 25 < 25 := Nat.mod_lt _ (by norm_num)

lemma genRange_digit_lt_ten (raw : Nat) : genRange 1 3 raw < 10 := by
  unfold genRange
  omega

/-- Soundness of `generate_prefix` on every in-contract prefix: for every
random stream it returns the prefix extended to a string accepted by
`is_valid`. -/
lemma generate_prefix_sound (rng : Nat → Nat) (p : List Char)
    (hs : shapeOKb p = true) (hl : p.length ≤ 9) :
    ∃ t, generate_prefix rng p = some (p ++ t) ∧ is_valid (p ++ t) = true := by
  match p with
  | [] =>
    rw [ generate_prefix, show (3 : Nat) = 2 + 1 from rfl, gpf_empty]
    rw [show genRange 65 90 (rng 0) = 65 + rng 0 % 25 from rfl]
    have hup : isUpperAZ (Char.ofNat (65 + rng 0 % 25)) = true :=
      letter_isUpperAZ (genRange_letter_lt (rng 0))
    have hu1 : utf8Len (Char.ofNat (65 + rng 0 % 25)) = 1 :=
      letter_utf8Len (genRange_letter_lt (rng 0))
    have hd10 : genRange 1 3 (rng 1) < 10 := genRange_digit_lt_ten (rng 1)
    have hbl : byteLength [Char.ofNat (65 + rng 0 % 25),
        digitChar ( genRange 1 3 (rng 1))] = 2 := by
      simp [hu1, utf8Len_digitChar]
    rw [show (2 : Nat) = 1 + 1 from rfl, gpf_core (by omega) (by omega)]
    obtain ⟨t, ht, hv⟩ := generate_core_sound (shiftRng rng 2)
      (Char.ofNat (65 + rng 0 % 25)) [digitChar ( genRange 1 3 (rng 1))]
      hup (by simp [isDigit09_digitChar hd10]) (by simp)
    refine ⟨[Char.ofNat (65 + rng 0 % 25), digitChar ( genRange 1 3 (rng 1))] ++ t,
      ?_, ?_⟩
    · rw [ht]
      simp
    · simpa using hv
  | [c] =>
    have hup : isUpperAZ c = true := by simpa [shapeOKb] using hs
    have hu1 : utf8Len c = 1 := utf8Len_of_isUpperAZ hup
    rw [ generate_prefix, show (3 : Nat) = 2 + 1 from rfl, gpf_one hu1]
    have hd10 : genRange 1 3 (rng 0) < 10 := genRange_digit_lt_ten (rng 0)
    have hbl : byteLength [c, digitChar ( genRange 1 3 (rng 0))] = 2 := by
      simp [hu1, utf8Len_digitChar]
    rw [show (2 : Nat) = 1 + 1 from rfl, gpf_core (by omega) (by omega)]
    obtain ⟨t, ht, hv⟩ := generate_core_sound (shiftRng rng 1) c
      [digitChar ( genRange 1 3 (rng 0))]
      hup (by simp [isDigit09_digitChar hd10]) (by simp)
    refine ⟨digitChar ( genRange 1 3 (rng 0)) :: t, ?_, ?_⟩
    · rw [ht]
      rfl
    · simpa using hv
  | first :: c2 :: rest2 =>
    have hup : isUpperAZ first = true := by
      have := by simpa [shapeOKb] using hs
      exact this.1
    have hdig : (c2 :: rest2).all isDigit09 = true := by
      have h' := by simpa [shapeOKb] using hs
      simp only [List.all_cons, Bool.and_eq_true]
      exact ⟨by simpa using h'.2.1, by simpa [List.all_eq_true] using h'.2.2⟩
    have hbr : byteLength (c2 :: rest2) = (c2 :: rest2).length :=
      byteLength_eq_length (fun c hc =>
        utf8Len_of_isDigit09 (by simpa using (List.all_eq_true.mp hdig c hc)))
    have hbp : byteLength (first :: c2 :: rest2) = (first :: c2 :: rest2).length := by
      rw [byteLength_cons, utf8Len_of_isUpperAZ hup, hbr]
      simp only [List.length_cons]
      omega
    have hge : 2 ≤ byteLength (first :: c2 :: rest2) := by
      rw [hbp]
      simp
    rw [ generate_prefix, show (3 : Nat) = 2 + 1 from rfl,
      gpf_core hge (by rw [hbp]; exact hl)]
    obtain ⟨t, ht, hv⟩ := generate_core_sound rng first (c2 :: rest2) hup hdig
      (by simpa using Nat.le_of_succ_le_succ (by simpa using hl))
    exact ⟨t, ht, hv⟩

/-- `generate_prefix` panics exactly on the out-of-contract prefixes. -/
lemma generate_prefix_none_iff (rng : Nat → Nat) (p : List Char) :
    generate_prefix rng p = none ↔ (9 < byteLength p ∨ shapeOKb p = false) := by
  by_cases hb : 9 < byteLength p
  · rw [ generate_prefix, show (3 : Nat) = 2 + 1 from rfl, gpf_too_long hb]
    simp [hb]
  · have hb' : byteLength p ≤ 9 := by omega
    by_cases hsh : shapeOKb p = true
    · obtain ⟨t, ht, _⟩ := generate_prefix_sound rng p hsh
        (le_trans (length_le_byteLength p) hb')
      rw [ht]
      simp [hb, hsh]
    · have hshf : shapeOKb p = false := by
        rcases h : shapeOKb p with _ | _
        · rfl
        · exact absurd h hsh
      match p with
      | [] => exact absurd rfl hsh
      | c :: cs =>
        have hsplit : isUpperAZ c = false ∨ cs.all isDigit09 = false := by
          have : (isUpperAZ c && cs.all isDigit09) = false := by
            simpa [shapeOKb] using hshf
          exact Bool.and_eq_false_iff.mp this
        by_cases h1 : byteLength (c :: cs) = 1
        · have hcs : cs = [] := by
            apply byteLength_eq_zero
            have := one_le_utf8Len c
            rw [byteLength_cons] at h1
            omega
          subst hcs
          have hu1 : utf8Len c = 1 := by simpa using h1
          have hupf : isUpperAZ c = false := by
            rcases hsplit with h | h
            · exact h
            · simp at h
          rw [ generate_prefix, show (3 : Nat) = 2 + 1 from rfl, gpf_one hu1]
          have hbl : byteLength [c, digitChar ( genRange 1 3 (rng 0))] = 2 := by
            simp [hu1, utf8Len_digitChar]
          rw [show (2 : Nat) = 1 + 1 from rfl, gpf_core (by omega) (by omega)]
          rw [generate_core_none_iff.mpr (Or.inl hupf)]
          simp [hshf]
        · have h2 : 2 ≤ byteLength (c :: cs) := by
            have := one_le_utf8Len c
            rw [byteLength_cons] at h1 hb' ⊢
            omega
          rw [ generate_prefix, show (3 : Nat) = 2 + 1 from rfl, gpf_core h2 hb']
          have hnone : generate_core rng c cs = none := by
            apply generate_core_none_iff.mpr
            rcases hsplit with h | h
            · exact Or.inl h
            · exact Or.inr (digitsOf_none h)
          rw [hnone]
          simp [hshf]

/-- A length-9 in-contract prefix leaves no random slot: the result is the
prefix followed by the solved check digit, independently of the stream. -/
lemma generate_prefix_len9 (rng : Nat → Nat) (first : Char) (rest : List Char)
    (h1 : isUpperAZ first = true) (h2 : rest.all isDigit09 = true)
    (hl : rest.length = 8) :
    generate_prefix rng (first :: rest) =
      some ((first :: rest) ++ [digitChar (solve_check_digit
        ((code_map first).1 :: (code_map first).2 ::
          rest.map (fun c => c.toNat - 48)))]) := by
  have hds : digitsOf rest = some (rest.map (fun c => c.toNat - 48)) := digitsOf_all h2
  have hbr : byteLength rest = rest.length :=
    byteLength_eq_length (fun c hc =>
      utf8Len_of_isDigit09 (by simpa using (List.all_eq_true.mp h2 c hc)))
  have hbp : byteLength (first :: rest) = 9 := by
    rw [byteLength_cons, utf8Len_of_isUpperAZ h1, hbr, hl]
  rw [ generate_prefix, show (3 : Nat) = 2 + 1 from rfl,
    gpf_core (by omega) (by omega), generate_core_eq h1 hds]
  set ds := rest.map (fun c => c.toNat - 48) with hdseq
  have hdl : ds.length = 8 := by rw [hdseq, List.length_map, hl]
  have hfe : coreFill rng (10 - (2 + ds.length)) = [] := by
    rw [hdl]
    rfl
  rw [hfe, List.append_nil]
  congr 1
  have hidx : byteLength (first :: rest) + 1 = ds.length + 1 + 1 := by omega
  rw [hidx]
  show (first :: rest) ++
      (((code_map first).1 :: (code_map first).2 ::
        (ds ++ [solve_check_digit ((code_map first).1 :: (code_map first).2 :: ds)])).drop
        (ds.length + 1 + 1)).map digitChar = _
  rw [List.drop_succ_cons, List.drop_succ_cons, List.drop_left]
  rfl

/-- On the empty prefix the result starts with the letter drawn from
`gen_range(b'A', b'Z')`, i.e. with code point `65 + raw % 25`. -/
lemma generate_empty_head (rng : Nat → Nat) :
    ∃ t, generate_prefix rng [] = some (Char.ofNat (65 + rng 0 % 25) :: t) := by
  have hup : isUpperAZ (Char.ofNat (65 + rng 0 % 25)) = true :=
    letter_isUpperAZ (genRange_letter_lt (rng 0))
  have hu1 : utf8Len (Char.ofNat (65 + rng 0 % 25)) = 1 :=
    letter_utf8Len (genRange_letter_lt (rng 0))
  have hd10 : genRange 1 3 (rng 1) < 10 := genRange_digit_lt_ten (rng 1)
  have hbl : byteLength [Char.ofNat (65 + rng 0 % 25),
      digitChar ( genRange 1 3 (rng 1))] = 2 := by
    simp [hu1, utf8Len_digitChar]
  rw [ generate_prefix, show (3 : Nat) = 2 + 1 from rfl, gpf_empty,
    show genRange 65 90 (rng 0) = 65 + rng 0 % 25 from rfl,
    show (2 : Nat) = 1 + 1 from rfl, gpf_core (by omega) (by omega)]
  obtain ⟨t, ht, _⟩ := generate_core_sound (shiftRng rng 2)
    (Char.ofNat (65 + rng 0 % 25)) [digitChar ( genRange 1 3 (rng 1))]
    hup (by simp [isDigit09_digitChar hd10]) (by simp)
  refine ⟨digitChar ( genRange 1 3 (rng 1)) :: t, ?_⟩
  rw [ht]
  rfl

/- ### is_valid analysis lemmas -/

/-- On a well-formed 10-character input `is_valid` is exactly the
divisibility test of the weighted sum of the 11-element expansion. -/
lemma is_valid_eval {first : Char} {rest : List Char}
    (h1 : isUpperAZ first = true) (h2 : rest.all isDigit09 = true)
    (hlen : rest.length = 9) :
    is_valid (first :: rest) =
      (sum ((code_map first).1 :: (code_map first).2 ::
        rest.map (fun c => c.toNat - 48)) % 10 == 0) := by
  have hds := digitsOf_all h2
  have hbt : byteLength rest = rest.length :=
    byteLength_eq_length (fun c hc =>
      utf8Len_of_isDigit09 (by simpa using (List.all_eq_true.mp h2 c hc)))
  have hb : byteLength (first :: rest) = 10 := by
    rw [byteLength_cons, utf8Len_of_isUpperAZ h1, hbt, hlen]
  unfold is_valid
  rw [if_neg (by omega)]
  show (if isUpperAZ first = true then _ else false) = _
  rw [if_pos h1, hds]
  show (sum ((code_map first).1 :: (code_map first).2 ::
    ((rest.map (fun c => c.toNat - 48)) ++
      List.replicate (9 - (rest.map (fun c => c.toNat - 48)).length) 0)) % 10 == 0) = _
  rw [List.length_map, hlen]
  simp

lemma digitsLoopChecked_eq {cs : List Char} : ∀ i, i + cs.length ≤ 11 →
    digitsLoopChecked cs i = some (digitsOf cs) := by
  induction cs with
  | nil => intro i _; rfl
  | cons c cs ih =>
    intro i h
    rw [show digitsLoopChecked (c :: cs) i =
      (if isDigit09 c = true then
        (if 11 ≤ i then none
         else (digitsLoopChecked cs (i + 1)).map
           (Option.map (fun ds => (c.toNat - 48) :: ds)))
       else some none) from rfl]
    rw [digitsOf_cons]
    by_cases hc : isDigit09 c = true
    · have hlt : ¬ 11 ≤ i := by
        simp only [List.length_cons] at h
        omega
      rw [if_pos hc, if_pos hc, if_neg hlt]
      rw [ih (i + 1) (by simp only [List.length_cons] at h; omega)]
      rfl
    · rw [if_neg hc, if_neg hc]

/-- `is_valid` never reaches a panicking operation: the explicit-panic model
returns exactly `some` of the panic-free model, on every input. -/
lemma is_valid_checked_eq (id : List Char) :
    is_valid_checked id = some (is_valid id) := by
  unfold is_valid_checked is_valid
  by_cases hb : byteLength id ≠ 10
  · rw [if_pos hb, if_pos hb]
  · rw [if_neg hb, if_neg hb]
    push_neg at hb
    rcases id with _ | ⟨first, rest⟩
    · rw [byteLength_nil] at hb
      exact absurd hb (by decide)
    · show (if isUpperAZ first = true then _ else some false) =
        some (if isUpperAZ first = true then _ else false)
      by_cases h1 : isUpperAZ first = true
      · rw [if_pos h1, if_pos h1]
        have hr : rest.length ≤ 9 := by
          have hlb := length_le_byteLength (first :: rest)
          rw [hb] at hlb
          simp only [List.length_cons] at hlb
          omega
        rw [digitsLoopChecked_eq 2 (by omega)]
        rcases hds : digitsOf rest with _ | ds <;> rfl
      · rw [if_neg h1, if_neg h1]

/-- An accepted string has exactly 10 characters, an uppercase ASCII letter
first and ASCII digits afterwards. -/
lemma is_valid_true_shape {id : List Char} (h : is_valid id = true) :
    id.length = 10 ∧ shapeOKb id = true := by
  unfold is_valid at h
  by_cases hb : byteLength id ≠ 10
  · rw [if_pos hb] at h
    exact absurd h (by simp)
  · rw [if_neg hb] at h
    push_neg at hb
    rcases id with _ | ⟨first, rest⟩
    · rw [byteLength_nil] at hb
      exact absurd hb (by decide)
    · replace h : (if isUpperAZ first = true then
        (match digitsOf rest with
         | none => false
         | some ds =>
            sum ((code_map first).1 :: (code_map first).2 ::
              (ds ++ List.replicate (9 - ds.length) 0)) % 10 == 0)
        else false) = true := h
      by_cases h1 : isUpperAZ first = true
      · rw [if_pos h1] at h
        rcases hds : digitsOf rest with _ | ds
        · rw [hds] at h
          exact absurd h (by simp)
        · have hall := (digitsOf_some_all hds).1
          have hbt : byteLength rest = rest.length :=
            byteLength_eq_length (fun c hc =>
              utf8Len_of_isDigit09 (by simpa using (List.all_eq_true.mp hall c hc)))
          have hlen : rest.length = 9 := by
            rw [byteLength_cons, utf8Len_of_isUpperAZ h1, hbt] at hb
            omega
          constructor
          · simp [hlen]
          · simp [shapeOKb, h1, hall]
      · rw [if_neg h1] at h
        exact absurd h (by simp)

/- ### Claim theorems -/

/-- C1: For every prefix P with 0 ≤ |P| ≤ 9 that satisfies the shape rules
(when nonempty, its first character is an uppercase ASCII letter and the
remaining characters are ASCII decimal digits), `generate_prefix` returns,
for every random stream, a string that starts with exactly P and that
`is_valid` accepts. -/
theorem generate_prefix_roundtrip (rng : Nat → Nat) (p : List Char)
    (hs : shapeOKb p = true) (hl : p.length ≤ 9) :
    ∃ t, generate_prefix rng p = some (p ++ t) ∧ is_valid (p ++ t) = true :=
  generate_prefix_sound rng p hs hl

theorem generate_prefix_roundtrip_witness :
    shapeOKb ("A2".toList) = true ∧ ("A2".toList).length ≤ 9 ∧
      (∃ t, generate_prefix (fun _ => 0) ("A2".toList) = some ("A2".toList ++ t) ∧
        is_valid ("A2".toList ++ t) = true) :=
  ⟨by decide, by decide,
    generate_prefix_roundtrip (fun _ => 0) ("A2".toList) (by decide) (by decide)⟩

/-- C2: On a well-formed 10-character input (uppercase letter plus nine
digits) `is_valid` returns true exactly when the weighted sum of the
11-element expansion (the letter's code pair then the nine digits) against
the multiplier vector is divisible by 10. -/
theorem is_valid_iff_checksum (first : Char) (rest : List Char)
    (h1 : isUpperAZ first = true) (h2 : rest.all isDigit09 = true)
    (hlen : rest.length = 9) :
    is_valid (first :: rest) = true ↔
      sum ((code_map first).1 :: (code_map first).2 ::
        rest.map (fun c => c.toNat - 48)) % 10 = 0 := by
  rw [is_valid_eval h1 h2 hlen]
  simp

theorem is_valid_iff_checksum_witness :
    is_valid ('A' :: "123456789".toList) = true ↔
      sum ((code_map 'A').1 :: (code_map 'A').2 ::
        ("123456789".toList).map (fun c => c.toNat - 48)) % 10 = 0 :=
  is_valid_iff_checksum 'A' ("123456789".toList) (by decide) (by decide) (by decide)

/-- C3: `is_valid` is total: on every input the explicit-panic model
`is_valid_checked` returns `some` of the boolean `is_valid` computes; no
input reaches a panicking operation. -/
theorem is_valid_total (id : List Char) :
    is_valid_checked id = some (is_valid id) :=
  is_valid_checked_eq id

/-- C4: For every letter and every 8-digit block filling positions 2–9 of
the expansion, the check digit computed by the code's formula
`(10 - partial_sum % 10) % 10` is below 10, completes the expansion to one
whose weighted sum is divisible by 10, and is the unique digit in 0–9 doing
so. -/
theorem solve_check_digit_unique (first : Char) (ds : List Nat)
    (h1 : isUpperAZ first = true) (h2 : ds.length = 8) (h3 : ∀ d ∈ ds, d < 10) :
    solve_check_digit ((code_map first).1 :: (code_map first).2 :: ds) =
      (10 - sum ((code_map first).1 :: (code_map first).2 :: ds) % 10) % 10 ∧
    solve_check_digit ((code_map first).1 :: (code_map first).2 :: ds) < 10 ∧
    sum (((code_map first).1 :: (code_map first).2 :: ds) ++
      [solve_check_digit ((code_map first).1 :: (code_map first).2 :: ds)]) % 10 = 0 ∧
    ∀ e, e < 10 →
      sum (((code_map first).1 :: (code_map first).2 :: ds) ++ [e]) % 10 = 0 →
      e = solve_check_digit ((code_map first).1 :: (code_map first).2 :: ds) := by
  have hxl : ((code_map first).1 :: (code_map first).2 :: ds).length = 10 := by
    simp [h2]
  exact ⟨solve_check_digit_eq hxl, solve_check_digit_lt, checksum_key hxl,
    fun e he h0 => checksum_unique hxl he h0⟩

theorem solve_check_digit_unique_witness :
    solve_check_digit ((code_map 'A').1 :: (code_map 'A').2 :: [1, 2, 3, 4, 5, 6, 7, 8]) =
      (10 - sum ((code_map 'A').1 :: (code_map 'A').2 :: [1, 2, 3, 4, 5, 6, 7, 8]) % 10) % 10 ∧
    solve_check_digit ((code_map 'A').1 :: (code_map 'A').2 :: [1, 2, 3, 4, 5, 6, 7, 8]) < 10 ∧
    sum (((code_map 'A').1 :: (code_map 'A').2 :: [1, 2, 3, 4, 5, 6, 7, 8]) ++
      [solve_check_digit ((code_map 'A').1 :: (code_map 'A').2 :: [1, 2, 3, 4, 5, 6, 7, 8])]) % 10 = 0 ∧
    ∀ e, e < 10 →
      sum (((code_map 'A').1 :: (code_map 'A').2 :: [1, 2, 3, 4, 5, 6, 7, 8]) ++ [e]) % 10 = 0 →
      e = solve_check_digit ((code_map 'A').1 :: (code_map 'A').2 :: [1, 2, 3, 4, 5, 6, 7, 8]) :=
  solve_check_digit_unique 'A' [1, 2, 3, 4, 5, 6, 7, 8] (by decide) (by decide) (by decide)

/-- C5: `generate_prefix` panics (modelled as `none`) exactly when the
caller contract is violated: the prefix's byte length exceeds 9, or the
prefix is nonempty and fails the letter/digit shape rules; on every
in-contract prefix, and every random stream, it returns normally. -/
theorem generate_prefix_panics_iff (rng : Nat → Nat) (p : List Char) :
    generate_prefix rng p = none ↔ (9 < byteLength p ∨ shapeOKb p = false) :=
  generate_prefix_none_iff rng p

/-- C6: The encoding table maps the 26 letters to exactly the canonical
two-digit pairs (A=10, …, I=34, O=35, W=32, X=30, Y=31, Z=33), and in
particular Z's pair [3,3] gives `"Z123456789"` the weighted sum 159, so
`is_valid` rejects it. -/
theorem code_map_table :
    code_map 'A' = (1, 0) ∧ code_map 'B' = (1, 1) ∧ code_map 'C' = (1, 2) ∧
    code_map 'D' = (1, 3) ∧ code_map 'E' = (1, 4) ∧ code_map 'F' = (1, 5) ∧
    code_map 'G' = (1, 6) ∧ code_map 'H' = (1, 7) ∧ code_map 'I' = (3, 4) ∧
    code_map 'J' = (1, 8) ∧ code_map 'K' = (1, 9) ∧ code_map 'L' = (2, 0) ∧
    code_map 'M' = (2, 1) ∧ code_map 'N' = (2, 2) ∧ code_map 'O' = (3, 5) ∧
    code_map 'P' = (2, 3) ∧ code_map 'Q' = (2, 4) ∧ code_map 'R' = (2, 5) ∧
    code_map 'S' = (2, 6) ∧ code_map 'T' = (2, 7) ∧ code_map 'U' = (2, 8) ∧
    code_map 'V' = (2, 9) ∧ code_map 'W' = (3, 2) ∧ code_map 'X' = (3, 0) ∧
    code_map 'Y' = (3, 1) ∧ code_map 'Z' = (3, 3) ∧
    sum [3, 3, 1, 2, 3, 4, 5, 6, 7, 8, 9] = 159 ∧
    is_valid ("Z123456789".toList) = false := by
  decide

/-- C7: `is_valid` rejects every string whose character count is not 10 and
every string violating the strict ASCII letter/digit shape; in particular a
10-character string with multi-byte characters is rejected. -/
theorem is_valid_rejects_malformed (id : List Char)
    (h : id.length ≠ 10 ∨ shapeOKb id = false) : is_valid id = false := by
  rcases hv : is_valid id with _ | _
  · rfl
  · have hshape := is_valid_true_shape hv
    rcases h with h | h
    · exact absurd hshape.1 h
    · rw [hshape.2] at h
      exact absurd h (by simp)

theorem is_valid_rejects_malformed_witness :
    (("A一二三四五六七八九".toList).length = 10 ∧
      shapeOKb ("A一二三四五六七八九".toList) = false) ∧
    is_valid ("A一二三四五六七八九".toList) = false :=
  ⟨by decide, is_valid_rejects_malformed ("A一二三四五六七八九".toList)
    (Or.inr (by decide))⟩

/-- C8: Contrary to the claim that the empty-prefix generator draws the
first letter uniformly from the whole range A–Z, the code draws from
`gen_range(b'A', b'Z')`, whose high bound is exclusive: the generated ID
can never start with 'Z', for any random stream. -/
theorem generate_empty_never_Z (rng : Nat → Nat) (s : List Char)
    (h : generate_prefix rng [] = some s) : s.head? ≠ some 'Z' := by
  obtain ⟨t, ht⟩ := generate_empty_head rng
  rw [ht] at h
  replace h := Option.some_inj.mp h
  rw [← h]
  intro hz
  replace hz := Option.some_inj.mp hz
  have hto : (Char.ofNat (65 + rng 0 % 25)).toNat = 65 + rng 0 % 25 :=
    ofNat_toNat (by have := genRange_letter_lt (rng 0); omega)
  have hzto : ('Z' : Char).toNat = 90 := by decide
  rw [hz, hzto] at hto
  have := genRange_letter_lt (rng 0)
  omega

theorem generate_empty_never_Z_witness :
    generate_prefix (fun _ => 24) [] = some ("Y144444448".toList) ∧
    ("Y144444448".toList).head? ≠ some 'Z' :=
  ⟨by decide, generate_empty_never_Z (fun _ => 24) ("Y144444448".toList) (by decide)⟩

/-- C9: `is_valid` accepts "A123456789" and rejects the 11-character
"A1234567899" and the empty string. -/
theorem is_valid_examples :
    is_valid ("A123456789".toList) = true ∧
    is_valid ("A1234567899".toList) = false ∧
    is_valid [] = false := by
  decide

/-- C10: On an in-contract prefix of length exactly 9 (uppercase letter
plus eight digits) no random slot remains: the result does not depend on
the random stream, and is exactly the prefix followed by the solved check
digit of its expansion. -/
theorem generate_prefix_len9_deterministic (r1 r2 : Nat → Nat)
    (first : Char) (rest : List Char)
    (hs : shapeOKb (first :: rest) = true) (hl : (first :: rest).length = 9) :
    generate_prefix r1 (first :: rest) = generate_prefix r2 (first :: rest) ∧
    generate_prefix r1 (first :: rest) =
      some ((first :: rest) ++ [digitChar (solve_check_digit
        ((code_map first).1 :: (code_map first).2 ::
          rest.map (fun c => c.toNat - 48)))]) := by
  have hsp : isUpperAZ first = true ∧ rest.all isDigit09 = true := by
    simpa [shapeOKb] using hs
  have hl8 : rest.length = 8 := by simpa using hl
  rw [ generate_prefix_len9 r1 first rest hsp.1 hsp.2 hl8,
    generate_prefix_len9 r2 first rest hsp.1 hsp.2 hl8]
  exact ⟨rfl, rfl⟩

theorem generate_prefix_len9_deterministic_witness :
    shapeOKb ('A' :: "12345678".toList) = true ∧
    ('A' :: "12345678".toList).length = 9 ∧
    ( generate_prefix (fun _ => 0) ('A' :: "12345678".toList) =
        generate_prefix (fun _ => 7) ('A' :: "12345678".toList) ∧
      generate_prefix (fun _ => 0) ('A' :: "12345678".toList) =
        some (('A' :: "12345678".toList) ++ [digitChar (solve_check_digit
          ((code_map 'A').1 :: (code_map 'A').2 ::
            ("12345678".toList).map (fun c => c.toNat - 48)))])) :=
  ⟨by decide, by decide,
    generate_prefix_len9_deterministic (fun _ => 0) (fun _ => 7)
      'A' ("12345678".toList) (by decide) (by decide)⟩

end TaiwanId
